import Mathlib

/-!
Verification of the live-auction bidding engine.

The definitions below are a shallow embedding of the TypeScript/Lua source:

* `placeBidLua` embeds `src/lua/placeBid.lua` (the atomic arbitration step
  executed by Redis `EVAL`; Redis runs scripts serially, so the whole script
  is one atomic state transition on the record).
* `placeBidService` embeds `placeBid` in `src/services/auction.service.ts`.
* `sysStep` embeds the interleaving of that arbitration step with the
  sweep pass `checkAndEndExpiredAuctions` of the same file (whose `ended`
  test reads the snapshot returned by `getAllItems`).
* `validateBid` and `bidResultEmissions` embed the `BID_PLACED` handler of
  `src/sockets/bidding.socket.ts`.
* `RedisHash`, `saveItem`, `getItemById`, `markAuctionEnded`, and the
  string codecs embed `src/store/auction.store.ts`.

JavaScript numbers are modelled as exact rationals (`ℚ`); where the
non-finite values `NaN`/`Infinity` matter (wire-level validation) the
type `JSNum` models them explicitly.  Epoch-millisecond times and the
`version` counter are modelled as `ℤ`.
-/

namespace LiveAuction

/-- The in-memory auction record, from `AuctionItem` in
`src/models/auctionItem.ts`.  `endsAt` is epoch milliseconds. -/
structure AuctionItem where
  id : String
  title : String
  startingPrice : ℚ
  currentBid : ℚ
  highestBidder : String
  endsAt : ℤ
  ended : Bool
  version : ℤ
deriving DecidableEq, Repr

/-- Return codes of `placeBid.lua`: `1 = BID_ACCEPTED`, `0 = BID_TOO_LOW`,
`-1 = AUCTION_ENDED`.  These are the same three values `BidResult.status`
ranges over in `src/models/auctionItem.ts`. -/
inductive BidCode where
  | accepted
  | tooLow
  | auctionEnded
deriving DecidableEq, Repr

/-- The atomic arbitration step, from `src/lua/placeBid.lua`.  The input
`none` is the case `EXISTS key == 0`; the returned record is the state of
the Redis hash when the script finishes.  The script:
checks existence; reads `currentBid`, `endsAt`, `ended`, `version`;
returns `AUCTION_ENDED` if `ended == 'true' or serverTime > endsAt`
(flagging `ended = 'true'` first if it was not yet set — lazy expiry);
returns `BID_TOO_LOW` if `bidAmount <= currentBid`; otherwise writes
`currentBid`, `highestBidder`, `version + 1` and returns `BID_ACCEPTED`. -/
def placeBidLua (item? : Option AuctionItem) (bidAmount : ℚ) (bidderName : String)
    (serverTime : ℤ) : Option AuctionItem × BidCode :=
  match item? with
  | none => (none, .auctionEnded)
  | some it =>
    if it.ended = true ∨ serverTime > it.endsAt then
      (some (if it.ended then it else { it with ended := true }), .auctionEnded)
    else if bidAmount ≤ it.currentBid then
      (some it, .tooLow)
    else
      (some { it with currentBid := bidAmount, highestBidder := bidderName,
                      version := it.version + 1 }, .accepted)

/-- One bid attempt, as fed to the Lua script: amount, bidder, server time. -/
structure BidAttempt where
  amount : ℚ
  bidder : String
  now : ℤ
deriving DecidableEq, Repr

/-- Run a sequence of arbitration calls against one record, collecting the
outcome codes in order. -/
def runBids : Option AuctionItem → List BidAttempt → Option AuctionItem × List BidCode
  | it?, [] => (it?, [])
  | it?, b :: bs =>
    let step := placeBidLua it? b.amount b.bidder b.now
    let rest := runBids step.1 bs
    (rest.1, step.2 :: rest.2)

/-- Number of `BID_ACCEPTED` outcomes in a list of codes. -/
def countAccepted (cs : List BidCode) : ℕ :=
  (cs.filter (fun c => c = .accepted)).length

/-- A live record as seeded (`src/seed/seed.ts` item 1, with a nominal
deadline), used as concrete input by the witnesses. -/
def itemA : AuctionItem :=
  { id := "1", title := "Vintage Rolex Submariner", startingPrice := 5000,
    currentBid := 5000, highestBidder := "", endsAt := 60000, ended := false,
    version := 0 }

/-- An already-ended record, used as concrete input by the witnesses. -/
def itemEnded : AuctionItem := { itemA with ended := true, highestBidder := "A" }

/-- A concrete bid sequence (the §8 scenario of the spec): one accepted
bid, one equal bid, one low bid. -/
def bidsW : List BidAttempt :=
  [{ amount := 5100, bidder := "A", now := 1000 },
   { amount := 5100, bidder := "B", now := 1000 },
   { amount := 5050, bidder := "C", now := 1000 }]

/-- The keyed store as seen by the service layer: one record per item id.
This abstracts the Redis hash encoding (modelled separately below); the
Lua script's writes are the only mutations it ever performs. -/
def Store : Type := String → Option AuctionItem

/-- The service-layer result, from `BidResult` in
`src/models/auctionItem.ts`; `item` and `previousBidder` are the optional
fields. -/
structure BidResult where
  success : Bool
  status : BidCode
  item : Option AuctionItem
  previousBidder : Option String
deriving DecidableEq, Repr

/-- `placeBid` from `src/services/auction.service.ts`: read the record
(missing → `AUCTION_ENDED` with no item), remember the previous leader
(`itemBefore.highestBidder || undefined`), run the atomic Lua step, then
re-read the record and package the outcome; a record missing on the
re-read is also reported as `AUCTION_ENDED`. -/
def placeBidService (store : Store) (itemId : String) (amount : ℚ)
    (bidderName : String) (serverTime : ℤ) : Store × BidResult :=
  match store itemId with
  | none => (store, ⟨false, .auctionEnded, none, none⟩)
  | some itemBefore =>
    let previousBidder : Option String :=
      if itemBefore.highestBidder = "" then none else some itemBefore.highestBidder
    let stepped := placeBidLua (some itemBefore) amount bidderName serverTime
    let store' : Store := fun k => if k = itemId then stepped.1 else store k
    match store' itemId, stepped.2 with
    | none, _ => (store', ⟨false, .auctionEnded, none, none⟩)
    | some itemAfter, .accepted =>
      (store', ⟨true, .accepted, some itemAfter, previousBidder⟩)
    | some itemAfter, .tooLow => (store', ⟨false, .tooLow, some itemAfter, none⟩)
    | some itemAfter, .auctionEnded =>
      (store', ⟨false, .auctionEnded, some itemAfter, none⟩)

/-- A concrete one-record store for the witnesses. -/
def storeA : Store := fun k => if k = "1" then some itemA else none

/-- State of one record interleaved with the Sweeper
(`checkAndEndExpiredAuctions` in `src/services/auction.service.ts`,
driven by the 1-second timer in `src/sockets/bidding.socket.ts`).
`snapshot` is the copy of the record obtained by the pass's `getAllItems`
read; `sweeperReports` counts how often the pass pushed the record onto
`endedItems` (each push is broadcast as `AUCTION_ENDED`, i.e. one
"newly ended" report); `lazyFlips` counts the `ended` false→true
transitions performed inside the Lua arbitration step (lazy expiry). -/
structure SweepSys where
  item : AuctionItem
  snapshot : Option AuctionItem
  sweeperReports : ℕ
  lazyFlips : ℕ
deriving DecidableEq, Repr

/-- Interleavable atomic events on one record: an arbitration call, the
Sweeper's snapshot read, and the Sweeper's check-mark-report step.  The
`await` points of `checkAndEndExpiredAuctions` split a pass into `snap`
followed by `mark`, so an arbitration call can land between them. -/
inductive SysOp where
  | arb (amount : ℚ) (bidder : String) (now : ℤ)
  | snap
  | mark (now : ℤ)
deriving DecidableEq, Repr

/-- One interleaving step.  `arb` runs the Lua script on the live record.
`snap` is the `getAllItems` read.  `mark` is the loop body of
`checkAndEndExpiredAuctions`: it tests `!item.ended && isExpired(item.endsAt)`
against the snapshot, and on success calls `markAuctionEnded` on the live
record and reports the record as newly ended. -/
def sysStep (s : SweepSys) : SysOp → SweepSys
  | .arb a b t =>
    let stepped := placeBidLua (some s.item) a b t
    let item' := stepped.1.getD s.item
    { s with item := item',
             lazyFlips := s.lazyFlips +
               (if s.item.ended = false ∧ item'.ended = true then 1 else 0) }
  | .snap => { s with snapshot := some s.item }
  | .mark t =>
    match s.snapshot with
    | none => s
    | some sn =>
      if sn.ended = false ∧ t > sn.endsAt then
        { s with item := { s.item with ended := true }, snapshot := none,
                 sweeperReports := s.sweeperReports + 1 }
      else { s with snapshot := none }

/-- Run a list of interleaved events. -/
def runSys : SweepSys → List SysOp → SweepSys
  | s, [] => s
  | s, op :: ops => runSys (sysStep s op) ops

/-- Events at the granularity the claim's amended form needs: whole sweep
passes (snapshot immediately followed by check-and-mark, no arbitration in
between) interleaved with arbitration calls. -/
inductive PassOp where
  | arb (amount : ℚ) (bidder : String) (now : ℤ)
  | pass (now : ℤ)
deriving DecidableEq, Repr

/-- Run whole passes and arbitration calls. -/
def passStep (s : SweepSys) : PassOp → SweepSys
  | .arb a b t => sysStep s (.arb a b t)
  | .pass t => sysStep (sysStep s .snap) (.mark t)

/-- Iterate `passStep`. -/
def runPasses : SweepSys → List PassOp → SweepSys
  | s, [] => s
  | s, op :: ops => runPasses (passStep s op) ops

/-- A live record with a tiny deadline, for the C4 interleaving. -/
def sysA : SweepSys :=
  { item := { itemA with endsAt := 10 }, snapshot := none,
    sweeperReports := 0, lazyFlips := 0 }

/-- Invariant of the whole-pass system: no pass is half-finished, the
record was reported as newly ended (by either path) at most once, and
never before its `ended` flag went true. -/
def SweepInv (s : SweepSys) : Prop :=
  s.snapshot = none ∧ s.sweeperReports + s.lazyFlips ≤ 1 ∧
    (s.item.ended = false → s.sweeperReports + s.lazyFlips = 0)

/-- A JavaScript number: an exact finite value, or one of the non-finite
values `NaN` and `±Infinity`, which `typeof` still reports as 'number'. -/
inductive JSNum where
  | finite (q : ℚ)
  | nan
  | posInf
  | negInf
deriving DecidableEq, Repr

/-- IEEE-style `<=` on JavaScript numbers: any comparison against `NaN`
is false; the infinities compare as extreme elements. -/
def JSNum.jsle : JSNum → JSNum → Bool
  | .nan, _ => false
  | _, .nan => false
  | .negInf, _ => true
  | _, .negInf => false
  | _, .posInf => true
  | .posInf, .finite _ => false
  | .finite a, .finite b => a ≤ b

/-- A wire-level value in the `amount` slot of a `BID_PLACED` message:
either a number (possibly non-finite) or something whose `typeof` is not
'number'. -/
inductive JSVal where
  | num (n : JSNum)
  | notNum
deriving DecidableEq, Repr

/-- JavaScript truthiness of an optional string: `undefined` and the
empty string are falsy. -/
def strTruthy : Option String → Bool
  | none => false
  | some s => !(s == "")

/-- JavaScript `v || dflt` for an optional string. -/
def jsStrOr (v : Option String) (dflt : String) : String :=
  match v with
  | some s => if s == "" then dflt else s
  | none => dflt

/-- An inbound `BID_PLACED` message as it arrives on the wire; the typed
interface promises strings and a number, but the runtime values may be
absent, empty, or non-finite, which is exactly what the handler's guards
test. -/
structure BidMsg where
  itemId : Option String
  amount : JSVal
  bidderName : Option String
deriving DecidableEq, Repr

/-- Payload of an outbound `OUTBID` event
(`src/types/socket.ts`). -/
structure OutbidPayload where
  itemId : String
  currentBid : ℚ
  message : String
deriving DecidableEq, Repr

/-- Result of the validation stage of the `BID_PLACED` handler: either a
short-circuit rejection (the `OUTBID` payload emitted to the submitter)
or the validated arguments passed on to `auctionService.placeBid`. -/
inductive ValidationStep where
  | reject (p : OutbidPayload)
  | proceed (itemId : String) (amount : JSNum) (bidderName : String)
deriving DecidableEq, Repr

/-- The validation guards of the `BID_PLACED` handler in
`src/sockets/bidding.socket.ts`:
`if (!itemId || typeof amount !== 'number' || !bidderName)` emits
`OUTBID { itemId: itemId || 'unknown', currentBid: 0, message: 'Invalid bid data' }`
and returns; then `if (amount <= 0)` emits
`OUTBID { itemId, currentBid: 0, message: 'Bid amount must be positive' }`
and returns; otherwise the service (and hence the store) is called. -/
def validateBid (m : BidMsg) : ValidationStep :=
  match m.amount with
  | .notNum => .reject ⟨jsStrOr m.itemId "unknown", 0, "Invalid bid data"⟩
  | .num n =>
    match m.itemId, m.bidderName with
    | some i, some b =>
      if i = "" ∨ b = "" then
        .reject ⟨jsStrOr m.itemId "unknown", 0, "Invalid bid data"⟩
      else if n.jsle (.finite 0) then
        .reject ⟨i, 0, "Bid amount must be positive"⟩
      else .proceed i n b
    | _, _ => .reject ⟨jsStrOr m.itemId "unknown", 0, "Invalid bid data"⟩

/-- Whether the handler reaches `auctionService.placeBid` (and hence the
store) for a given message: exactly when validation proceeds. -/
def reachesStore (m : BidMsg) : Bool :=
  match validateBid m with
  | .proceed _ _ _ => true
  | .reject _ => false

/-- Modelled from the spec: "`amount` a positive finite number" — the
admissibility condition C5 claims validation enforces. -/
def specPositiveFinite (v : JSVal) : Prop :=
  ∃ q : ℚ, v = .num (.finite q) ∧ 0 < q

/-- Audience of an outbound socket event: `socket.emit` goes to the
submitting client only, `io.emit` broadcasts to every connected client. -/
inductive Recipient where
  | submitter
  | allClients
deriving DecidableEq, Repr

/-- An outbound event of the bidding socket (`src/types/socket.ts`). -/
inductive OutEvent where
  | bidAccepted (item : AuctionItem)
  | updateBid (item : AuctionItem)
  | outbid (p : OutbidPayload)
  | auctionEnded (item : AuctionItem)
deriving DecidableEq, Repr

/-- One emitted event together with its audience. -/
structure Emission where
  event : OutEvent
  recipient : Recipient
deriving DecidableEq, Repr

/-- Events emitted by the validation stage: a rejected message produces a
single `OUTBID` to the submitter and the handler returns. -/
def validationEmissions (m : BidMsg) : List Emission :=
  match validateBid m with
  | .reject p => [⟨.outbid p, .submitter⟩]
  | .proceed _ _ _ => []

/-- Events emitted by the `BID_PLACED` handler once the service returned
`result` (`src/sockets/bidding.socket.ts` lines 45–77).  On success:
`BID_ACCEPTED` to the submitter via `socket.emit`, `UPDATE_BID` to all via
`io.emit`, and — when a previous bidder exists and differs from the new
bidder — `OUTBID` via `io.emit`.  On rejection: one `OUTBID` to the
submitter via `socket.emit` (nothing at all when `BID_TOO_LOW` lacks an
item). -/
def bidResultEmissions (itemId : String) (bidderName : String) (r : BidResult) :
    List Emission :=
  match r.success, r.item with
  | true, some it =>
    [⟨.bidAccepted it, .submitter⟩, ⟨.updateBid it, .allClients⟩] ++
    (match r.previousBidder with
     | some pb =>
       if pb ≠ bidderName then
         [⟨.outbid ⟨itemId, it.currentBid, "You have been outbid on " ++ it.title⟩,
            .allClients⟩]
       else []
     | none => [])
  | _, _ =>
    match r.status with
    | .auctionEnded =>
      [⟨.outbid ⟨itemId, (r.item.map AuctionItem.currentBid).getD 0, "Auction has ended"⟩,
         .submitter⟩]
    | .tooLow =>
      match r.item with
      | some it =>
        [⟨.outbid ⟨itemId, it.currentBid,
            "Bid too low. Current bid is $" ++ toString it.currentBid⟩, .submitter⟩]
      | none => []
    | .accepted => []

/-- Decimal digit to character, as in JavaScript's number printing. -/
def digitChar : ℕ → Char
  | 0 => '0'
  | 1 => '1'
  | 2 => '2'
  | 3 => '3'
  | 4 => '4'
  | 5 => '5'
  | 6 => '6'
  | 7 => '7'
  | 8 => '8'
  | _ => '9'

/-- Character to decimal digit, `none` on a non-digit. -/
def digit? (c : Char) : Option ℕ :=
  if 48 ≤ c.toNat ∧ c.toNat ≤ 57 then some (c.toNat - 48) else none

/-- Little-endian base-10 digits of `n`, with explicit fuel so that the
recursion is structural (the fuel `n` itself always suffices). -/
def natDigitsAux : ℕ → ℕ → List ℕ
  | 0, _ => []
  | _ + 1, 0 => []
  | fuel + 1, n + 1 => ((n + 1) % 10) :: natDigitsAux fuel ((n + 1) / 10)

/-- Little-endian base-10 digits of `n` (empty for 0). -/
def natDigits (n : ℕ) : List ℕ := natDigitsAux n n

/-- The decimal numeral of `n`, as JavaScript's `toString` prints a
non-negative integer. -/
def natToChars (n : ℕ) : List Char :=
  if n = 0 then ['0'] else (natDigits n).reverse.map digitChar

/-- Whether a character is a decimal digit (`digit?` succeeds). -/
def isDigitChar (c : Char) : Bool := decide (48 ≤ c.toNat ∧ c.toNat ≤ 57)

/-- Longest all-digit prefix of a character list — the prefix scan both
`parseInt` and `parseFloat` perform. -/
def takeDigits (l : List Char) : List Char := l.takeWhile isDigitChar

/-- What remains after the longest all-digit prefix. -/
def dropDigits (l : List Char) : List Char := l.dropWhile isDigitChar

/-- Value of an all-digit character list, most significant digit first.
(On the all-digit lists produced by `takeDigits` the `getD` default is
never used.) -/
def charsVal (cs : List Char) : ℕ :=
  cs.foldl (fun a c => 10 * a + (digit? c).getD 0) 0

/-- Strip one leading sign ('-' or '+'), reporting whether it was '-'.
Both `parseInt` and `parseFloat` (also in exponents) accept either
sign. -/
def parseSign (l : List Char) : Bool × List Char :=
  match l with
  | c :: t => if c = '-' then (true, t) else if c = '+' then (false, t) else (false, l)
  | [] => (false, [])

/-- Exactly `k` fractional digits of `m < 10^k`, most significant first
(the digits of `m` left-padded with zeros). -/
def fracChars (k m : ℕ) : List Char :=
  ((natDigits m ++ List.replicate (k - (natDigits m).length) 0)).reverse.map digitChar

/-- Factor all powers of 10 out of `m`: returns `(s, z)` with
`m = s * 10^z` and, for `m ≠ 0`, `s` not divisible by 10 (explicit fuel,
`m` itself always suffices). -/
def stripZerosAux : ℕ → ℕ → ℕ × ℕ
  | 0, m => (m, 0)
  | fuel + 1, m =>
    if m ≠ 0 ∧ m % 10 = 0 then
      ((stripZerosAux fuel (m / 10)).1, (stripZerosAux fuel (m / 10)).2 + 1)
    else (m, 0)

/-- Total zero-stripping. -/
def stripZeros (m : ℕ) : ℕ × ℕ := stripZerosAux m m

/-- The mantissa of exponential notation: the digits of `s` (which has no
trailing zeros), a '.' separating the first digit from the rest when
there is more than one. -/
def mantissaChars (s : ℕ) : List Char :=
  match (natDigits s).reverse with
  | [] => ['0']
  | [d] => [digitChar d]
  | d :: rest => digitChar d :: '.' :: rest.map digitChar

/-- The exponent suffix of exponential notation: 'e', an explicit sign
('+' for non-negative, as JavaScript prints), and the exponent digits. -/
def expChars (e : ℤ) : List Char :=
  'e' :: (if e < 0 then '-' else '+') :: natToChars e.natAbs

/-- Smallest exponent `k < 1100` with `q.den ∣ 10^k`, i.e. the number of
decimal places needed to write `q` exactly.  Every IEEE-754 double is a
dyadic rational and needs at most 1075 decimal places, so on the numbers
the JavaScript source can hold this never returns `none`. -/
def decExpAux (q : ℚ) : ℕ → ℕ → Option ℕ
  | 0, _ => none
  | fuel + 1, k => if 10 ^ k % q.den = 0 then some k else decExpAux q fuel (k + 1)

/-- Total decimal-exponent search (fuel 1100 from `k = 0`). -/
def decExp (q : ℚ) : Option ℕ := decExpAux q 1100 0

/-- ECMA-262 `Number::toString` on the non-negative value `m / 10^k`
(`k` minimal, so `m` has no trailing zeros when `k > 0`).  With `D` the
decimal digit count of `m`, the value's decimal-point position is
`n = D - k`; JavaScript prints positionally for `-6 < n ≤ 21` (an
integer numeral, or integer digits '.' fraction digits, or
"0.000…digits") and switches to exponential notation
`mantissa e±(n-1)` for `n > 21` or `n ≤ -6` — e.g.
`(1e21).toString() = '1e+21'` and `(1e-7).toString() = '1e-7'`. -/
def jsRenderDecimal (m k : ℕ) : List Char :=
  if m = 0 then ['0']
  else if (natDigits m).length > 21 + k ∨ (natDigits m).length + 6 ≤ k then
    mantissaChars (stripZeros m).1 ++
      expChars (((natDigits m).length : ℤ) - (k : ℤ) - 1)
  else if k = 0 then natToChars m
  else natToChars (m / 10 ^ k) ++ '.' :: fracChars k (m % 10 ^ k)

/-- `Number.prototype.toString` on a finite value: an optional '-' and
the ECMA rendering of the magnitude. -/
def jsNumToString (q : ℚ) : String :=
  match decExp q with
  | none => ""
  | some k =>
    ⟨(if q < 0 then ['-'] else []) ++
      jsRenderDecimal ((|q| * (10 : ℚ) ^ k).num.toNat) k⟩

/-- The exponent part after a consumed 'e'/'E': optional sign and the
digit prefix; contributes 0 when no digits follow (`parseFloat` then
stops before the 'e'). -/
def parseExpTail (t : List Char) : ℤ :=
  let sn := parseSign t
  let ds := takeDigits sn.2
  if ds.isEmpty then 0 else (if sn.1 then -1 else 1) * (charsVal ds : ℤ)

/-- The exponent of a `parseFloat` input: an 'e' or 'E' followed by
`parseExpTail`, otherwise 0 (parsing stops there). -/
def parseExp (l : List Char) : ℤ :=
  match l with
  | 'e' :: t => parseExpTail t
  | 'E' :: t => parseExpTail t
  | _ => 0

/-- The optional fraction after the integer digits: a '.' followed by a
further digit prefix; anything else is left for the exponent scan. -/
def splitFrac (r : List Char) : List Char × List Char :=
  match r with
  | '.' :: t => (takeDigits t, dropDigits t)
  | _ => ([], r)

/-- The unsigned part of `parseFloat`: longest digit prefix, an optional
'.' with another digit prefix, and an optional exponent; `none` (the
`NaN` result) when not even one digit was found. -/
def jsParseFloatCore (l : List Char) : Option ℚ :=
  if (takeDigits l).isEmpty ∧ (splitFrac (dropDigits l)).1.isEmpty then none
  else
    some (((charsVal (takeDigits l) : ℚ) +
        (charsVal (splitFrac (dropDigits l)).1 : ℚ) /
          (10 : ℚ) ^ (splitFrac (dropDigits l)).1.length) *
      (10 : ℚ) ^ parseExp (splitFrac (dropDigits l)).2)

/-- `parseFloat`: prefix-parses an optional sign, digits, an optional
fraction, and an optional exponent, ignoring any trailing garbage;
`none` models the `NaN` result. -/
def jsParseFloat (s : String) : Option ℚ :=
  let sn := parseSign s.data
  (jsParseFloatCore sn.2).map (fun v => if sn.1 then -v else v)

/-- `toString` of an integral JavaScript number (exponential above
`1e21`, like every other number). -/
def intToString (i : ℤ) : String :=
  ⟨(if i < 0 then ['-'] else []) ++ jsRenderDecimal i.natAbs 0⟩

/-- `parseInt(s, 10)`: an optional sign and the longest digit prefix,
ignoring everything after it (`parseInt('1e+21', 10) = 1`); `none`
models the `NaN` result on an empty digit prefix. -/
def jsParseInt (s : String) : Option ℤ :=
  let sn := parseSign s.data
  let ds := takeDigits sn.2
  if ds.isEmpty then none
  else some ((if sn.1 then -1 else 1) * (charsVal ds : ℤ))

/-- JavaScript `Boolean.prototype.toString`. -/
def boolToString (b : Bool) : String := if b then "true" else "false"

/-- A Redis hash: a partial map from field names to string values
(`hGetAll` of a missing key is the empty map). -/
def RedisHash : Type := String → Option String

/-- The hash with no fields. -/
def emptyHash : RedisHash := fun _ => none

/-- The keyed Redis database: every key holds a (possibly empty) hash. -/
def RedisStore : Type := String → RedisHash

/-- The empty database. -/
def emptyRedisStore : RedisStore := fun _ => emptyHash

/-- Key layout `auction:item:<id>` (`AUCTION_KEY_PREFIX` in
`src/store/auction.store.ts`). -/
def keyFor (id : String) : String := "auction:item:" ++ id

/-- `saveItem` from `src/store/auction.store.ts`: `hSet` of all eight
fields, each number encoded with `toString`; `HSET` merges into whatever
hash already sits at the key. -/
def saveItem (s : RedisStore) (it : AuctionItem) : RedisStore :=
  fun k =>
    if k = keyFor it.id then
      (fun f =>
        if f = "id" then some it.id
        else if f = "title" then some it.title
        else if f = "startingPrice" then some (jsNumToString it.startingPrice)
        else if f = "currentBid" then some (jsNumToString it.currentBid)
        else if f = "highestBidder" then some it.highestBidder
        else if f = "endsAt" then some (intToString it.endsAt)
        else if f = "ended" then some (boolToString it.ended)
        else if f = "version" then some (intToString it.version)
        else s k f)
    else s k

/-- `parseAuctionItem` from `src/store/auction.store.ts`: numeric fields
via `parseFloat`/`parseInt`, `ended` via comparison with 'true'.  A
missing field or unparsable numeral (which in JavaScript poisons the item
with `undefined`/`NaN`) is modelled as `none`. -/
def parseAuctionItemR (h : RedisHash) : Option AuctionItem := do
  let id ← h "id"
  let title ← h "title"
  let sp ← (h "startingPrice").bind jsParseFloat
  let cb ← (h "currentBid").bind jsParseFloat
  let hb ← h "highestBidder"
  let ea ← (h "endsAt").bind jsParseInt
  let en ← h "ended"
  let v ← (h "version").bind jsParseInt
  pure ⟨id, title, sp, cb, hb, ea, en == "true", v⟩

/-- `getItemById` from `src/store/auction.store.ts`: `hGetAll`, then the
guard `if (!redisData || !redisData.id) return null`, then parse. -/
def getItemById (s : RedisStore) (id : String) : Option AuctionItem :=
  if strTruthy (s (keyFor id) "id") then parseAuctionItemR (s (keyFor id)) else none

/-- `markAuctionEnded` from `src/store/auction.store.ts`:
`HSET key ended 'true'` and nothing else. -/
def markAuctionEnded (s : RedisStore) (id : String) : RedisStore :=
  fun k =>
    if k = keyFor id then (fun f => if f = "ended" then some "true" else s k f)
    else s k

/-- A concrete ended record at the hash level, for the C7 witness. -/
def hashEnded : RedisHash :=
  fun f => if f = "ended" then some "true" else if f = "id" then some "1" else none

/-- A concrete store holding `hashEnded`, for the C7 witness. -/
def storeEnded : RedisStore := fun k => if k = keyFor "1" then hashEnded else emptyHash

/-- An item with an empty id but well-formed numeric fields — the C9
counterexample input. -/
def itemNoId : AuctionItem := { itemA with id := "" }

/-- The record after the witness scenario's accepted 5500 bid by "B". -/
def itemWon : AuctionItem :=
  { itemA with currentBid := 5500, highestBidder := "B", version := 1 }

/-- The service result for an accepted bid by "B" dethroning leader "A". -/
def resultWon : BidResult :=
  { success := true, status := .accepted, item := some itemWon, previousBidder := some "A" }

/-- The `OUTBID` payload the handler builds for the dethroned leader of
`resultWon`. -/
def outbidWonPayload : OutbidPayload :=
  { itemId := "1", currentBid := 5500,
    message := "You have been outbid on " ++ itemWon.title }

/-- Arbitration on an existing record never deletes it, and its `version`
grows by exactly 1 on `BID_ACCEPTED` and by 0 otherwise. -/
theorem placeBidLua_some_version (it : AuctionItem) (a : ℚ) (b : String) (t : ℤ) :
    ∃ it' c, placeBidLua (some it) a b t = (some it', c) ∧
      it'.version = it.version + (if c = BidCode.accepted then 1 else 0) := by
  by_cases he : it.ended = true ∨ t > it.endsAt
  · refine ⟨if it.ended then it else { it with ended := true }, .auctionEnded, ?_, ?_⟩
    · simp [placeBidLua, he]
    · split <;> simp
  · by_cases hb : a ≤ it.currentBid
    · exact ⟨it, .tooLow, by simp [placeBidLua, he, hb], by simp⟩
    · exact ⟨{ it with currentBid := a, highestBidder := b, version := it.version + 1 },
        .accepted, by simp [placeBidLua, he, hb], by simp⟩

/-- C1: `arbitrate` returns `AUCTION_ENDED` when the record is missing,
already ended, or past its deadline (flipping `ended` to true in the same
atomic step in the last case); returns `BID_TOO_LOW` with no mutation when
`proposedAmount <= currentBid` (strict comparison, equal bids never win);
otherwise returns `BID_ACCEPTED` mutating exactly `currentBid`,
`highestBidder`, and `version = version + 1`. -/
theorem arbitrate_case_analysis (item? : Option AuctionItem) (a : ℚ) (b : String) (t : ℤ) :
    (item? = none → placeBidLua item? a b t = (none, .auctionEnded)) ∧
    (∀ it, item? = some it → it.ended = true →
      placeBidLua item? a b t = (some it, .auctionEnded)) ∧
    (∀ it, item? = some it → it.ended = false → t > it.endsAt →
      placeBidLua item? a b t = (some { it with ended := true }, .auctionEnded)) ∧
    (∀ it, item? = some it → it.ended = false → t ≤ it.endsAt → a ≤ it.currentBid →
      placeBidLua item? a b t = (some it, .tooLow)) ∧
    (∀ it, item? = some it → it.ended = false → t ≤ it.endsAt → it.currentBid < a →
      placeBidLua item? a b t =
        (some { it with currentBid := a, highestBidder := b, version := it.version + 1 },
         .accepted)) := by
  refine ⟨?_, ?_, ?_, ?_, ?_⟩
  · rintro rfl; rfl
  · rintro it rfl he; simp [placeBidLua, he]
  · rintro it rfl he ht; simp [placeBidLua, he, ht]
  · rintro it rfl he ht ha
    simp [placeBidLua, he, not_lt.mpr ht, ha]
  · rintro it rfl he ht ha
    simp [placeBidLua, he, not_lt.mpr ht, not_le.mpr ha]

/-- Witness for C1: the accepted-bid case at a concrete record and bid. -/
theorem arbitrate_case_analysis_witness :
    placeBidLua (some itemA) 5100 "A" 1000 =
      (some { itemA with currentBid := 5100, highestBidder := "A",
                         version := itemA.version + 1 },
       .accepted) :=
  (arbitrate_case_analysis (some itemA) 5100 "A" 1000).2.2.2.2 itemA rfl rfl
    (by decide) (by decide)

/-- C2: once a record's `ended` flag is true, every arbitration call on it
returns `AUCTION_ENDED` — never `BID_ACCEPTED` — and leaves the record
(its `currentBid`, `highestBidder`, `version`, `endsAt`) unchanged,
regardless of the proposed amount. -/
theorem ended_record_frozen (it : AuctionItem) (a : ℚ) (b : String) (t : ℤ)
    (h : it.ended = true) :
    placeBidLua (some it) a b t = (some it, .auctionEnded) ∧
    (placeBidLua (some it) a b t).2 ≠ .accepted := by
  constructor
  · simp [placeBidLua, h]
  · simp [placeBidLua, h]

/-- Witness for C2: an absurdly high bid on an ended record is still
rejected with `AUCTION_ENDED` and mutates nothing. -/
theorem ended_record_frozen_witness :
    placeBidLua (some itemEnded) 999999 "X" 0 = (some itemEnded, .auctionEnded) ∧
    (placeBidLua (some itemEnded) 999999 "X" 0).2 ≠ .accepted :=
  ended_record_frozen itemEnded 999999 "X" 0 rfl

/-- Running a bid sequence never deletes the record and adds exactly the
number of accepted outcomes to `version`. -/
theorem runBids_version (bs : List BidAttempt) : ∀ it : AuctionItem,
    ∃ it', (runBids (some it) bs).1 = some it' ∧
      it'.version = it.version + (countAccepted (runBids (some it) bs).2 : ℤ) := by
  induction bs with
  | nil => exact fun it => ⟨it, rfl, by simp [runBids, countAccepted]⟩
  | cons b bs ih =>
    intro it
    obtain ⟨it1, c, h1, hv1⟩ := placeBidLua_some_version it b.amount b.bidder b.now
    obtain ⟨it', h', hv'⟩ := ih it1
    refine ⟨it', ?_, ?_⟩
    · simp only [runBids, h1]
      exact h'
    · simp only [runBids, h1, countAccepted, List.filter_cons] at hv' ⊢
      cases c <;> simp at hv1 ⊢ <;> omega

/-- C3: starting from a freshly created record (`version = 0`), after any
sequence of arbitration calls the record's `version` equals the number of
calls that returned `BID_ACCEPTED`; rejected bids never change it. -/
theorem version_counts_accepted_bids (it : AuctionItem) (bs : List BidAttempt)
    (h0 : it.version = 0) :
    ∃ it', (runBids (some it) bs).1 = some it' ∧
      it'.version = (countAccepted (runBids (some it) bs).2 : ℤ) := by
  obtain ⟨it', h, hv⟩ := runBids_version bs it
  exact ⟨it', h, by rw [hv, h0, zero_add]⟩

/-- Witness for C3: the concrete §8 scenario (one accepted, two rejected)
ends with `version = 1`. -/
theorem version_counts_accepted_bids_witness :
    ∃ it', (runBids (some itemA) bidsW).1 = some it' ∧
      it'.version = (countAccepted (runBids (some itemA) bidsW).2 : ℤ) :=
  version_counts_accepted_bids itemA bidsW rfl

/-- Inversion of the accepted branch of the Lua script: acceptance implies
the record was live, in time, strictly outbid, and the post-record is the
three-field update. -/
theorem placeBidLua_accepted (it it' : AuctionItem) (a : ℚ) (b : String) (t : ℤ)
    (h : placeBidLua (some it) a b t = (some it', .accepted)) :
    it.ended = false ∧ t ≤ it.endsAt ∧ it.currentBid < a ∧
    it' = { it with currentBid := a, highestBidder := b, version := it.version + 1 } := by
  by_cases he : it.ended = true ∨ t > it.endsAt
  · simp [placeBidLua, he] at h
  · by_cases hb : a ≤ it.currentBid
    · simp [placeBidLua, he, hb] at h
    · push_neg at he hb
      have hef : it.ended = false := by
        cases hend : it.ended
        · rfl
        · exact absurd hend he.1
      refine ⟨hef, he.2, hb, ?_⟩
      simp [placeBidLua, hef, Int.not_lt.mpr he.2, Rat.not_le.mpr hb] at h
      rw [hef]
      exact h.symm

/-- C8: the service re-reads the store after the atomic step, so the
returned `item` is exactly the post-arbitration record held by the store;
in particular a second bid of the same amount arbitrated after an accepted
one gets `BID_TOO_LOW` and already sees `currentBid` equal to the winner's
amount. -/
theorem placeBid_reports_post_state (store : Store) (id : String) (amt : ℚ)
    (b1 b2 : String) (t : ℤ) :
    (placeBidService store id amt b1 t).2.item = (placeBidService store id amt b1 t).1 id ∧
    ((placeBidService store id amt b1 t).2.status = .accepted →
      (placeBidService (placeBidService store id amt b1 t).1 id amt b2 t).2.status = .tooLow ∧
      ∃ it2,
        (placeBidService (placeBidService store id amt b1 t).1 id amt b2 t).2.item = some it2 ∧
        it2.currentBid = amt) := by
  cases hst : store id with
  | none => simp [placeBidService, hst]
  | some itemBefore =>
    obtain ⟨it1, c, h1, -⟩ := placeBidLua_some_version itemBefore amt b1 t
    constructor
    · cases c <;> simp [placeBidService, hst, h1]
    · intro hacc
      cases c with
      | tooLow => simp [placeBidService, hst, h1] at hacc
      | auctionEnded => simp [placeBidService, hst, h1] at hacc
      | accepted =>
        obtain ⟨he, ht, hlt, hit1⟩ := placeBidLua_accepted itemBefore it1 amt b1 t h1
        have hstore1 : (placeBidService store id amt b1 t).1 = fun k =>
            if k = id then some it1 else store k := by
          simp [placeBidService, hst, h1]
        have hlua2 : placeBidLua (some it1) amt b2 t = (some it1, .tooLow) := by
          have hend : ¬(it1.ended = true ∨ t > it1.endsAt) := by
            rw [hit1]; simp [he, Int.not_lt.mpr ht]
          have hle : amt ≤ it1.currentBid := by rw [hit1]
          simp [placeBidLua, hend, hle]
        rw [hstore1]
        refine ⟨?_, it1, ?_, ?_⟩
        · simp [placeBidService, hlua2]
        · simp [placeBidService, hlua2]
        · rw [hit1]

/-- Witness for C8: the §8 scenario — `User1` and `User2` both bid 5500
against `currentBid = 5000` at the same instant; the second call returns
`BID_TOO_LOW` and already reports `currentBid = 5500`. -/
theorem placeBid_reports_post_state_witness :
    (placeBidService (placeBidService storeA "1" 5500 "User1" 1000).1
        "1" 5500 "User2" 1000).2.status = .tooLow ∧
    ∃ it2,
      (placeBidService (placeBidService storeA "1" 5500 "User1" 1000).1
          "1" 5500 "User2" 1000).2.item = some it2 ∧
      it2.currentBid = 5500 :=
  (placeBid_reports_post_state storeA "1" 5500 "User1" "User2" 1000).2 (by decide)

/-- One whole-pass event preserves `SweepInv`. -/
theorem passStep_inv (s : SweepSys) (op : PassOp) (h : SweepInv s) :
    SweepInv (passStep s op) := by
  obtain ⟨hsn, hle, hz⟩ := h
  cases op with
  | arb a b t =>
    cases he : s.item.ended with
    | true =>
      have : placeBidLua (some s.item) a b t =
          (some s.item, .auctionEnded) := by simp [placeBidLua, he]
      simp only [passStep, sysStep, this]
      exact ⟨hsn, by simpa [he] using hle, by simp [he]⟩
    | false =>
      by_cases hexp : t > s.item.endsAt
      · have hlua : placeBidLua (some s.item) a b t =
            (some { s.item with ended := true }, .auctionEnded) := by
          simp [placeBidLua, he, hexp]
        simp only [passStep, sysStep, hlua]
        refine ⟨hsn, ?_, by simp⟩
        have h0 := hz he
        simp [he]
        omega
      · by_cases hb : a ≤ s.item.currentBid
        · have hlua : placeBidLua (some s.item) a b t = (some s.item, .tooLow) := by
            simp [placeBidLua, he, hexp, hb]
          simp only [passStep, sysStep, hlua]
          exact ⟨hsn, by simpa [he] using hle, by simpa [he] using hz⟩
        · have hlua : placeBidLua (some s.item) a b t =
              (some { s.item with currentBid := a, highestBidder := b, version := s.item.version + 1 }, .accepted) := by
            simp [placeBidLua, he, hexp, hb]
          simp only [passStep, sysStep, hlua]
          exact ⟨hsn, by simpa [he] using hle, by simpa [he] using hz⟩
  | pass t =>
    simp only [passStep, sysStep, hsn]
    by_cases hc : s.item.ended = false ∧ t > s.item.endsAt
    · rw [if_pos hc]
      have h0 := hz hc.1
      exact ⟨rfl, by dsimp only; omega, by simp⟩
    · rw [if_neg hc]
      exact ⟨rfl, hle, hz⟩

/-- Iterating whole-pass events preserves `SweepInv`. -/
theorem runPasses_inv (ops : List PassOp) : ∀ s : SweepSys, SweepInv s →
    SweepInv (runPasses s ops) := by
  induction ops with
  | nil => exact fun s h => h
  | cons op ops ih => exact fun s h => ih _ (passStep_inv s op h)

/-- C4 counterexample: with the sweep pass split at its `await` points, a
sweep snapshot taken while the record is live, followed by an arbitration
call past the deadline (which performs the lazy `ended` flip), is still
followed by a sweeper report for the very same record — the code checks
`ended` against the pass's snapshot, not immediately before marking, so a
record lazily ended by arbitration is ALSO reported by the Sweeper. -/
theorem sweeper_double_report_cex :
    (runSys sysA [.snap, .arb 1 "b" 11]).item.ended = true ∧
    (runSys sysA [.snap, .arb 1 "b" 11]).lazyFlips = 1 ∧
    (runSys sysA [.snap, .arb 1 "b" 11, .mark 11]).sweeperReports = 1 ∧
    (runSys sysA [.snap, .arb 1 "b" 11, .mark 11]).lazyFlips = 1 := by
  refine ⟨?_, ?_, ?_, ?_⟩ <;> decide

/-- C4 amended: if no arbitration call lands between a pass's snapshot and
its mark step (passes run atomically), then over any interleaving of
passes and arbitration calls the record is reported as newly ended at most
once in total — counting the Sweeper's reports and arbitration's lazy
`ended` flips together. -/
theorem sweeper_reports_at_most_once (s : SweepSys) (ops : List PassOp)
    (h1 : s.snapshot = none) (h2 : s.sweeperReports = 0) (h3 : s.lazyFlips = 0) :
    (runPasses s ops).sweeperReports + (runPasses s ops).lazyFlips ≤ 1 :=
  (runPasses_inv ops s ⟨h1, by omega, fun _ => by omega⟩).2.1

/-- Witness for C4's amended theorem: an expiring pass, a late bid, and a
second pass on the concrete record report it exactly once. -/
theorem sweeper_reports_at_most_once_witness :
    (runPasses sysA [.pass 11, .arb 1 "b" 12, .pass 13]).sweeperReports +
      (runPasses sysA [.pass 11, .arb 1 "b" 12, .pass 13]).lazyFlips ≤ 1 :=
  sweeper_reports_at_most_once sysA [.pass 11, .arb 1 "b" 12, .pass 13] rfl rfl rfl

/-- C5 counterexample: a `BID_PLACED` message whose amount is `Infinity`
passes both validation guards (`typeof Infinity === 'number'` and
`Infinity <= 0` is false) and reaches the store, although `Infinity` is
not a positive finite number. -/
theorem validation_admits_infinite_amount :
    reachesStore { itemId := some "1", amount := .num .posInf, bidderName := some "u" } =
      true ∧
    ¬ specPositiveFinite (.num .posInf) := by
  refine ⟨rfl, ?_⟩
  rintro ⟨q, hq, -⟩
  exact JSNum.noConfusion (JSVal.num.inj hq)

/-- C5 amended: arbitration (the store) is reached exactly when `itemId`
is present and non-empty, `bidderName` is present and non-empty, and
`amount` is of number type with `amount <= 0` false — a condition that
`NaN` and `+Infinity` also satisfy, so validation enforces positivity only
for finite amounts, not finiteness itself; every input failing the
condition short-circuits with one `OUTBID` rejection to the submitter and
never calls the store. -/
theorem validation_characterization (m : BidMsg) :
    (reachesStore m = true ↔
      (∃ i, m.itemId = some i ∧ i ≠ "") ∧
      (∃ n, m.amount = .num n ∧ n.jsle (.finite 0) = false) ∧
      (∃ b, m.bidderName = some b ∧ b ≠ "")) ∧
    (reachesStore m = false →
      ∃ p, validateBid m = .reject p ∧
        validationEmissions m = [{ event := .outbid p, recipient := .submitter }]) := by
  obtain ⟨iid, amt, bn⟩ := m
  cases amt with
  | notNum => simp [reachesStore, validateBid, validationEmissions]
  | num n =>
    cases iid with
    | none => simp [reachesStore, validateBid, validationEmissions]
    | some i =>
      cases bn with
      | none => simp [reachesStore, validateBid, validationEmissions]
      | some b =>
        by_cases hi : i = ""
        · simp [reachesStore, validateBid, validationEmissions, hi]
        · by_cases hb : b = ""
          · simp [reachesStore, validateBid, validationEmissions, hi, hb]
          · by_cases hn : n.jsle (.finite 0) <;>
              simp [reachesStore, validateBid, validationEmissions, hi, hb, hn]

/-- Witness for C5's amended theorem: a non-positive finite amount is
rejected with a single `OUTBID` notification to the submitter. -/
theorem validation_characterization_witness :
    ∃ p, validateBid { itemId := some "1", amount := .num (.finite (-5)),
                       bidderName := some "u" } = .reject p ∧
      validationEmissions { itemId := some "1", amount := .num (.finite (-5)),
                            bidderName := some "u" } =
        [{ event := .outbid p, recipient := .submitter }] :=
  (validation_characterization
    { itemId := some "1", amount := .num (.finite (-5)), bidderName := some "u" }).2
    (by decide)

/-- C6: evaluation of the handler's emission plan at the failing input —
an accepted bid by "B" on item "1" whose previous leader "A" differs.  The
`OUTBID` notification is emitted with `io.emit`, i.e. broadcast to ALL
connected clients, not delivered to the dethroned leader as its recipient
(the code has no per-bidder channel at all; its own comment says "Notify
previous bidder", making the broadcast a slip). -/
theorem outbid_broadcast_on_acceptance :
    bidResultEmissions "1" "B" resultWon =
      [{ event := .bidAccepted itemWon, recipient := .submitter },
       { event := .updateBid itemWon, recipient := .allClients },
       { event := .outbid outbidWonPayload, recipient := .allClients }] := by
  decide

/-- C10: every rejection emitted by the validation stage carries
`currentBid = 0` regardless of the auction's actual current bid, and its
`itemId` is the literal string "unknown" whenever the submitted `itemId`
is empty or absent. -/
theorem invalid_bid_rejection_payload (m : BidMsg) (p : OutbidPayload)
    (h : validateBid m = .reject p) :
    p.currentBid = 0 ∧ (strTruthy m.itemId = false → p.itemId = "unknown") := by
  obtain ⟨iid, amt, bn⟩ := m
  cases amt with
  | notNum =>
    simp only [validateBid, ValidationStep.reject.injEq] at h
    subst h
    cases iid with
    | none => exact ⟨rfl, fun _ => rfl⟩
    | some i =>
      refine ⟨rfl, fun ht => ?_⟩
      simp only [strTruthy, Bool.not_eq_false', beq_iff_eq] at ht
      simp [jsStrOr, ht]
  | num n =>
    cases iid with
    | none =>
      simp only [validateBid, ValidationStep.reject.injEq] at h
      subst h
      exact ⟨rfl, fun _ => rfl⟩
    | some i =>
      cases bn with
      | none =>
        simp only [validateBid, ValidationStep.reject.injEq] at h
        subst h
        refine ⟨rfl, fun ht => ?_⟩
        simp only [strTruthy, Bool.not_eq_false', beq_iff_eq] at ht
        simp [jsStrOr, ht]
      | some b =>
        by_cases hi : i = ""
        · simp only [validateBid, hi, true_or, if_true, ValidationStep.reject.injEq] at h
          subst h
          exact ⟨rfl, fun _ => by simp [jsStrOr, hi]⟩
        · by_cases hb : b = ""
          · simp only [validateBid, hi, hb, or_true, if_true,
              ValidationStep.reject.injEq] at h
            subst h
            refine ⟨rfl, fun ht => ?_⟩
            simp only [strTruthy, Bool.not_eq_false', beq_iff_eq] at ht
            exact absurd ht hi
          · have hor : ¬(i = "" ∨ b = "") := by tauto
            by_cases hn : n.jsle (.finite 0)
            · simp only [validateBid, hor, if_false, hn, if_true,
                ValidationStep.reject.injEq] at h
              subst h
              refine ⟨rfl, fun ht => ?_⟩
              simp only [strTruthy, Bool.not_eq_false', beq_iff_eq] at ht
              exact absurd ht hi
            · simp [validateBid, hor, hn] at h

/-- Digit characters decode back to the digit. -/
theorem digit?_digitChar (d : ℕ) (h : d < 10) : digit? (digitChar d) = some d := by
  interval_cases d <;> decide

/-- Digit characters are never the decimal point. -/
theorem digitChar_ne_dot (d : ℕ) (h : d < 10) : digitChar d ≠ '.' := by
  interval_cases d <;> decide

/-- Digit characters are never the minus sign. -/
theorem digitChar_ne_dash (d : ℕ) (h : d < 10) : digitChar d ≠ '-' := by
  interval_cases d <;> decide

/-- The fueled digit expansion recombines to the number (fuel `≥ n`). -/
theorem natDigitsAux_ofDigits (fuel : ℕ) : ∀ n, n ≤ fuel →
    Nat.ofDigits 10 (natDigitsAux fuel n) = n := by
  induction fuel with
  | zero =>
    intro n hn
    interval_cases n
    rfl
  | succ f ih =>
    intro n hn
    match n with
    | 0 => rfl
    | m + 1 =>
      have hdiv : (m + 1) / 10 < m + 1 := Nat.div_lt_self (by omega) (by omega)
      rw [natDigitsAux, Nat.ofDigits_cons, ih ((m + 1) / 10) (by omega)]
      omega

/-- All entries of the fueled digit expansion are `< 10`. -/
theorem natDigitsAux_lt (fuel : ℕ) : ∀ n, ∀ d ∈ natDigitsAux fuel n, d < 10 := by
  induction fuel with
  | zero => intro n d hd; simp [natDigitsAux] at hd
  | succ f ih =>
    intro n d hd
    match n with
    | 0 => simp [natDigitsAux] at hd
    | m + 1 =>
      rw [natDigitsAux] at hd
      rcases List.mem_cons.mp hd with h | h
      · omega
      · exact ih _ d h

/-- The fueled digit expansion of `n < 10^k` has at most `k` digits. -/
theorem natDigitsAux_len (fuel : ℕ) : ∀ n k, n ≤ fuel → n < 10 ^ k →
    (natDigitsAux fuel n).length ≤ k := by
  induction fuel with
  | zero =>
    intro n k hn _
    interval_cases n
    simp [natDigitsAux]
  | succ f ih =>
    intro n k hn hk
    match n with
    | 0 => simp [natDigitsAux]
    | m + 1 =>
      have hkpos : k ≠ 0 := by
        rintro rfl
        simp at hk
      obtain ⟨j, rfl⟩ : ∃ j, k = j + 1 := ⟨k - 1, by omega⟩
      have hdiv : (m + 1) / 10 < m + 1 := Nat.div_lt_self (by omega) (by omega)
      have hdivlt : (m + 1) / 10 < 10 ^ j := by
        rw [Nat.div_lt_iff_lt_mul (by omega)]
        calc m + 1 < 10 ^ (j + 1) := hk
        _ = 10 ^ j * 10 := by ring
      rw [natDigitsAux, List.length_cons]
      exact Nat.succ_le_succ (ih _ j (by omega) hdivlt)

/-- The digit expansion recombines to the number. -/
theorem natDigits_ofDigits (n : ℕ) : Nat.ofDigits 10 (natDigits n) = n :=
  natDigitsAux_ofDigits n n le_rfl

/-- All digits of the expansion are `< 10`. -/
theorem natDigits_lt (n : ℕ) : ∀ d ∈ natDigits n, d < 10 :=
  natDigitsAux_lt n n

/-- The expansion of `n < 10^k` has at most `k` digits. -/
theorem natDigits_len (n k : ℕ) (h : n < 10 ^ k) : (natDigits n).length ≤ k :=
  natDigitsAux_len n n k le_rfl h

/-- The digit expansion of a positive number is non-empty. -/
theorem natDigits_ne_nil (n : ℕ) (h : 0 < n) : natDigits n ≠ [] := by
  obtain ⟨m, rfl⟩ : ∃ m, n = m + 1 := ⟨n - 1, by omega⟩
  rw [natDigits, natDigitsAux]
  exact List.cons_ne_nil _ _

/-- Digit characters pass the digit test. -/
theorem isDigitChar_digitChar (d : ℕ) (h : d < 10) :
    isDigitChar (digitChar d) = true := by
  interval_cases d <;> decide

/-- Digit characters are never the plus sign. -/
theorem digitChar_ne_plus (d : ℕ) (h : d < 10) : digitChar d ≠ '+' := by
  interval_cases d <;> decide

/-- Accumulating the rendered digits of `le` after accumulator `a`
yields the positional value. -/
theorem foldl_charsVal (le : List ℕ) : ∀ a : ℕ, (∀ d ∈ le, d < 10) →
    (le.reverse.map digitChar).foldl (fun a c => 10 * a + (digit? c).getD 0) a =
      a * 10 ^ le.length + Nat.ofDigits 10 le := by
  induction le with
  | nil =>
    intro a _
    simp [Nat.ofDigits_nil]
  | cons d t ih =>
    intro a hd
    rw [List.reverse_cons, List.map_append, List.foldl_append,
      ih a (fun x hx => hd x (List.mem_cons_of_mem _ hx))]
    have hd10 : d < 10 := hd d (List.mem_cons_self d t)
    simp only [List.map_cons, List.map_nil, List.foldl_cons, List.foldl_nil,
      digit?_digitChar d hd10, Option.getD_some]
    rw [Nat.ofDigits_cons, List.length_cons]
    ring

/-- `charsVal` of a rendered digit list is its positional value. -/
theorem charsVal_render (le : List ℕ) (h : ∀ d ∈ le, d < 10) :
    charsVal (le.reverse.map digitChar) = Nat.ofDigits 10 le := by
  rw [charsVal, foldl_charsVal le 0 h]
  simp

/-- `charsVal` inverts the decimal rendering of a natural number. -/
theorem charsVal_natToChars (n : ℕ) : charsVal (natToChars n) = n := by
  by_cases hn : n = 0
  · subst hn
    decide
  · rw [natToChars, if_neg hn, charsVal_render _ (natDigits_lt n)]
    exact natDigits_ofDigits n

/-- Zero-padded fractional digits have exactly `k` characters. -/
theorem fracChars_length (k m : ℕ) (h : m < 10 ^ k) : (fracChars k m).length = k := by
  have hlen : (natDigits m).length ≤ k := natDigitsAux_len m m k le_rfl h
  simp only [fracChars, List.length_map, List.length_reverse, List.length_append,
    List.length_replicate]
  omega

/-- `ofDigits` of a zero run is zero. -/
theorem ofDigits_replicate_zero (b j : ℕ) :
    Nat.ofDigits b (List.replicate j 0) = 0 := by
  induction j with
  | zero => rfl
  | succ i ih => rw [List.replicate_succ, Nat.ofDigits_cons, ih]; ring

/-- `charsVal` inverts the zero-padded fractional rendering. -/
theorem charsVal_fracChars (k m : ℕ) : charsVal (fracChars k m) = m := by
  have hdig : ∀ d ∈ natDigits m ++ List.replicate (k - (natDigits m).length) 0,
      d < 10 := by
    intro d hd
    rcases List.mem_append.mp hd with h1 | h2
    · exact natDigitsAux_lt m m d h1
    · have := List.eq_of_mem_replicate h2
      omega
  rw [fracChars, charsVal_render _ hdig, Nat.ofDigits_append,
    natDigits_ofDigits m, ofDigits_replicate_zero]
  simp

/-- All characters of a rendered numeral are digits. -/
theorem natToChars_digits (n : ℕ) : ∀ c ∈ natToChars n, isDigitChar c = true := by
  intro c hc
  rw [natToChars] at hc
  split at hc
  · simp only [List.mem_singleton] at hc
    subst hc
    decide
  · obtain ⟨d, hd, rfl⟩ := List.mem_map.mp hc
    exact isDigitChar_digitChar d (natDigitsAux_lt n n d (List.mem_reverse.mp hd))

/-- All characters of the fractional rendering are digits. -/
theorem fracChars_digits (k m : ℕ) : ∀ c ∈ fracChars k m, isDigitChar c = true := by
  intro c hc
  obtain ⟨d, hd, rfl⟩ := List.mem_map.mp hc
  rcases List.mem_append.mp (List.mem_reverse.mp hd) with h1 | h2
  · exact isDigitChar_digitChar d (natDigitsAux_lt m m d h1)
  · have := List.eq_of_mem_replicate h2
    exact isDigitChar_digitChar d (by omega)

/-- Rendered numerals are never empty. -/
theorem natToChars_ne_nil (n : ℕ) : natToChars n ≠ [] := by
  rw [natToChars]
  split
  · simp
  · next hn =>
    intro hmap
    exact natDigits_ne_nil n (by omega)
      (List.reverse_eq_nil_iff.mp (List.map_eq_nil_iff.mp hmap))

/-- The digit prefix scan splits an all-digit block from a
non-digit-headed (or empty) remainder. -/
theorem takeDrop_digits_append (X r : List Char)
    (hX : ∀ c ∈ X, isDigitChar c = true)
    (hr : r = [] ∨ ∃ c t, r = c :: t ∧ isDigitChar c = false) :
    takeDigits (X ++ r) = X ∧ dropDigits (X ++ r) = r := by
  rw [takeDigits, dropDigits]
  induction X with
  | nil =>
    rcases hr with rfl | ⟨c, t, rfl, hc⟩
    · exact ⟨rfl, rfl⟩
    · rw [List.nil_append]
      constructor
      · rw [List.takeWhile_cons, hc]
        rfl
      · rw [List.dropWhile_cons, hc]
        rfl
  | cons x X ih =>
    have hx : isDigitChar x = true := hX x (List.mem_cons_self x X)
    obtain ⟨h1, h2⟩ := ih (fun c hc => hX c (List.mem_cons_of_mem x hc))
    constructor
    · rw [List.cons_append, List.takeWhile_cons, hx]
      simp only [if_true]
      exact congrArg (List.cons x) h1
    · rw [List.cons_append, List.dropWhile_cons, hx]
      simp only [if_true]
      exact h2

/-- Unfolding the `String` constructor. -/
theorem string_data_mk (l : List Char) : (String.mk l).data = l := rfl

/-- The fueled digit expansion does not depend on the fuel, as long as
the fuel suffices. -/
theorem natDigitsAux_fuel (f1 : ℕ) : ∀ f2 n, n ≤ f1 → n ≤ f2 →
    natDigitsAux f1 n = natDigitsAux f2 n := by
  induction f1 with
  | zero =>
    intro f2 n h1 _
    interval_cases n
    cases f2 <;> rfl
  | succ f ih =>
    intro f2 n h1 h2
    cases n with
    | zero => cases f2 <;> rfl
    | succ m =>
      cases f2 with
      | zero => omega
      | succ g =>
        have hdiv : (m + 1) / 10 < m + 1 := Nat.div_lt_self (by omega) (by omega)
        simp only [natDigitsAux]
        rw [ih g ((m + 1) / 10) (by omega) (by omega)]

/-- Multiplying by 10 prepends a zero digit. -/
theorem natDigits_mul10 (t : ℕ) (h : 0 < t) :
    natDigits (10 * t) = 0 :: natDigits t := by
  obtain ⟨u, hu⟩ : ∃ u, 10 * t = u + 1 := ⟨10 * t - 1, by omega⟩
  have h1 : (u + 1) % 10 = 0 := by omega
  have h2 : (u + 1) / 10 = t := by omega
  calc natDigits (10 * t) = natDigitsAux (u + 1) (u + 1) := by rw [natDigits, hu]
    _ = (u + 1) % 10 :: natDigitsAux u ((u + 1) / 10) := by simp only [natDigitsAux]
    _ = 0 :: natDigitsAux u t := by rw [h1, h2]
    _ = 0 :: natDigitsAux t t := by rw [natDigitsAux_fuel u t t (by omega) le_rfl]
    _ = 0 :: natDigits t := rfl

/-- Digit count of `s * 10^z` for positive `s`. -/
theorem natDigits_len_mul_pow (s : ℕ) (h : 0 < s) : ∀ z,
    (natDigits (s * 10 ^ z)).length = (natDigits s).length + z := by
  intro z
  induction z with
  | zero => simp
  | succ z ih =>
    have hpos : 0 < s * 10 ^ z := by positivity
    have hmul : s * 10 ^ (z + 1) = 10 * (s * 10 ^ z) := by ring
    rw [hmul, natDigits_mul10 _ hpos, List.length_cons, ih]
    omega

/-- `stripZerosAux` factors its input as `s * 10^z` with `s` nonzero for
nonzero input (fuel `≥ m`). -/
theorem stripZerosAux_spec (fuel : ℕ) : ∀ m, m ≤ fuel →
    (stripZerosAux fuel m).1 * 10 ^ (stripZerosAux fuel m).2 = m ∧
      (m ≠ 0 → (stripZerosAux fuel m).1 ≠ 0) := by
  induction fuel with
  | zero =>
    intro m hm
    interval_cases m
    simp [stripZerosAux]
  | succ f ih =>
    intro m hm
    by_cases hc : m ≠ 0 ∧ m % 10 = 0
    · have hge : 10 ≤ m := by omega
      obtain ⟨ih1, ih2⟩ := ih (m / 10) (by omega)
      simp only [stripZerosAux, if_pos hc]
      constructor
      · rw [pow_succ, ← mul_assoc, ih1]
        omega
      · intro _
        exact ih2 (by omega)
    · simp only [stripZerosAux, if_neg hc]
      exact ⟨by simp, fun h => h⟩

/-- Every rendered numeral starts with a digit character. -/
theorem natToChars_head (n : ℕ) :
    ∃ d t, d < 10 ∧ natToChars n = digitChar d :: t := by
  rw [natToChars]
  split
  · exact ⟨0, [], by omega, rfl⟩
  · next hn =>
    cases hrev : (natDigits n).reverse with
    | nil =>
      exact absurd (List.reverse_eq_nil_iff.mp hrev) (natDigits_ne_nil n (by omega))
    | cons d rest =>
      refine ⟨d, rest.map digitChar, ?_, by rw [List.map_cons]⟩
      refine natDigits_lt n d (List.mem_reverse.mp ?_)
      rw [hrev]
      exact List.mem_cons_self d rest

/-- Decomposition of the mantissa rendering: leading digit, then the
remaining digits after a '.' when there are any. -/
theorem mantissa_decomp (s : ℕ) (h : 0 < s) :
    ∃ l d0, d0 < 10 ∧ (∀ d ∈ l, d < 10) ∧ natDigits s = l ++ [d0] ∧
      s = Nat.ofDigits 10 l + 10 ^ l.length * d0 ∧
      mantissaChars s =
        digitChar d0 ::
          (if l.isEmpty then [] else '.' :: l.reverse.map digitChar) := by
  have hne : natDigits s ≠ [] := natDigits_ne_nil s h
  refine ⟨(natDigits s).dropLast, (natDigits s).getLast hne, ?_, ?_, ?_, ?_, ?_⟩
  · exact natDigitsAux_lt s s _ (List.getLast_mem hne)
  · intro d hd
    exact natDigitsAux_lt s s d ((List.dropLast_sublist _).subset hd)
  · exact (List.dropLast_append_getLast hne).symm
  · conv_lhs => rw [← natDigits_ofDigits s,
      ← List.dropLast_append_getLast hne]
    rw [Nat.ofDigits_append, Nat.ofDigits_singleton]
  · have hrev : (natDigits s).reverse =
        (natDigits s).getLast hne :: (natDigits s).dropLast.reverse := by
      conv_lhs => rw [← List.dropLast_append_getLast hne]
      rw [List.reverse_append]
      rfl
    rw [mantissaChars, hrev]
    by_cases hl : (natDigits s).dropLast = []
    · rw [hl]
      rfl
    · obtain ⟨x, xs, hxs⟩ : ∃ x xs, (natDigits s).dropLast.reverse = x :: xs := by
        cases hrev2 : (natDigits s).dropLast.reverse with
        | nil => exact absurd (List.reverse_eq_nil_iff.mp hrev2) hl
        | cons x xs => exact ⟨x, xs, rfl⟩
      rw [hxs]
      have hne2 : (natDigits s).dropLast.isEmpty = false := by
        simp [List.isEmpty_iff, hl]
      rw [hne2]
      simp only [Bool.false_eq_true, if_false, ← hxs]

/-- A leading '-' is stripped as a negative sign. -/
theorem parseSign_dash (l : List Char) : parseSign ('-' :: l) = (true, l) := rfl

/-- A leading '+' is stripped as a positive sign. -/
theorem parseSign_plus (l : List Char) : parseSign ('+' :: l) = (false, l) := rfl

/-- A digit-headed list carries no sign. -/
theorem parseSign_digit (d : ℕ) (h : d < 10) (t : List Char) :
    parseSign (digitChar d :: t) = (false, digitChar d :: t) := by
  simp [parseSign, digitChar_ne_dash d h, digitChar_ne_plus d h]

/-- The exponent suffix parses back to the exponent. -/
theorem parseExp_expChars (e : ℤ) : parseExp (expChars e) = e := by
  have ht := takeDrop_digits_append (natToChars e.natAbs) []
    (natToChars_digits _) (Or.inl rfl)
  rw [List.append_nil] at ht
  have hemp : (natToChars e.natAbs).isEmpty = false := by
    simp [List.isEmpty_iff, natToChars_ne_nil]
  rw [expChars]
  show parseExpTail ((if e < 0 then '-' else '+') :: natToChars e.natAbs) = e
  by_cases he : e < 0
  · rw [if_pos he]
    simp only [parseExpTail, parseSign_dash, ht.1, hemp, Bool.false_eq_true,
      if_false, if_true, charsVal_natToChars]
    omega
  · rw [if_neg he]
    simp only [parseExpTail, parseSign_plus, ht.1, hemp, Bool.false_eq_true,
      if_false, charsVal_natToChars]
    omega

/-- Success of the exponent search implies divisibility of the
denominator. -/
theorem decExpAux_mod (q : ℚ) (fuel : ℕ) : ∀ k0 k, decExpAux q fuel k0 = some k →
    10 ^ k % q.den = 0 := by
  induction fuel with
  | zero => intro k0 k h; simp [decExpAux] at h
  | succ f ih =>
    intro k0 k h
    rw [decExpAux] at h
    by_cases hc : 10 ^ k0 % q.den = 0
    · rw [if_pos hc] at h
      obtain rfl : k0 = k := by injection h
      exact hc
    · rw [if_neg hc] at h
      exact ih _ _ h

/-- When the exponent search succeeds, `|q|·10^k` is a whole number and
`toNat` of its numerator casts back to it. -/
theorem decExp_num_eq (q : ℚ) (k : ℕ) (h : decExp q = some k) :
    (((|q| * (10 : ℚ) ^ k).num.toNat : ℕ) : ℚ) = |q| * (10 : ℚ) ^ k := by
  have hdvd : q.den ∣ 10 ^ k :=
    Nat.dvd_of_mod_eq_zero (decExpAux_mod q 1100 0 k h)
  obtain ⟨c, hc⟩ := hdvd
  have hden : ((q.den : ℚ)) ≠ 0 := by
    exact_mod_cast q.den_pos.ne'
  have habs : |q| * (10 : ℚ) ^ k = ((q.num.natAbs * c : ℕ) : ℚ) := by
    have habsq : |q| = ((q.num.natAbs : ℕ) : ℚ) / (q.den : ℚ) := by
      rw [Int.cast_natAbs, Int.cast_abs]
      rw [← abs_of_pos (show (0 : ℚ) < (q.den : ℚ) by exact_mod_cast q.den_pos),
        ← abs_div]
      rw [Rat.num_div_den]
    have h10 : (10 : ℚ) ^ k = ((10 ^ k : ℕ) : ℚ) := by push_cast; ring
    rw [habsq, h10, hc]
    push_cast
    field_simp
    ring
  rw [habs, Rat.num_natCast, Int.toNat_natCast]

/-- Recombining integer and fractional parts over a common power of 10. -/
theorem render_arith (m k : ℕ) :
    ((m / 10 ^ k : ℕ) : ℚ) + ((m % 10 ^ k : ℕ) : ℚ) / (10 : ℚ) ^ k =
      (m : ℚ) / (10 : ℚ) ^ k := by
  have hnat : 10 ^ k * (m / 10 ^ k) + m % 10 ^ k = m := Nat.div_add_mod m (10 ^ k)
  rw [eq_div_iff (by positivity : ((10 : ℚ) ^ k) ≠ 0), add_mul,
    div_mul_cancel₀ _ (by positivity : ((10 : ℚ) ^ k) ≠ 0)]
  rw [show ((m : ℕ) : ℚ) = ((10 ^ k * (m / 10 ^ k) + m % 10 ^ k : ℕ) : ℚ) from by
    rw [hnat]]
  push_cast
  ring

/-- `splitFrac` finds no fraction in an empty remainder. -/
theorem splitFrac_nil : splitFrac [] = ([], []) := rfl

/-- `splitFrac` consumes a '.' and scans the following digits. -/
theorem splitFrac_dot (t : List Char) :
    splitFrac ('.' :: t) = (takeDigits t, dropDigits t) := rfl

/-- `splitFrac` finds no fraction before an exponent suffix. -/
theorem splitFrac_exp (e : ℤ) : splitFrac (expChars e) = ([], expChars e) := rfl

/-- The unsigned parse inverts the ECMA rendering of `m / 10^k`, across
both the positional and the exponential branches. -/
theorem jsParseFloatCore_render (m k : ℕ) :
    jsParseFloatCore (jsRenderDecimal m k) = some ((m : ℚ) / (10 : ℚ) ^ k) := by
  have h10 : (10 : ℚ) ≠ 0 := by norm_num
  have hcv2 : charsVal ([] : List Char) = 0 := rfl
  have hpe : parseExp [] = 0 := rfl
  by_cases hm0 : m = 0
  · subst hm0
    rw [jsRenderDecimal, if_pos rfl]
    have ht : takeDigits ['0'] = ['0'] ∧ dropDigits ['0'] = [] := by decide
    have hcv : charsVal ['0'] = 0 := by decide
    rw [jsParseFloatCore, ht.1, ht.2, splitFrac_nil]
    simp [hcv, hcv2, hpe]
  · rw [jsRenderDecimal, if_neg hm0]
    by_cases hexp : (natDigits m).length > 21 + k ∨ (natDigits m).length + 6 ≤ k
    · rw [if_pos hexp]
      have hsz : (stripZeros m).1 * 10 ^ (stripZeros m).2 = m :=
        (stripZerosAux_spec m m le_rfl).1
      have hs0 : (stripZeros m).1 ≠ 0 := (stripZerosAux_spec m m le_rfl).2 hm0
      obtain ⟨l, d0, hd0, hl10, hsplit, hval, hmant⟩ :=
        mantissa_decomp (stripZeros m).1 (by omega)
      have hD : (natDigits m).length = l.length + 1 + (stripZeros m).2 := by
        conv_lhs => rw [← hsz]
        rw [natDigits_len_mul_pow _ (by omega), hsplit, List.length_append]
        simp
      have hcd : charsVal [digitChar d0] = d0 := by
        have hren := charsVal_render [d0] (by intro x hx; simp at hx; omega)
        simpa [Nat.ofDigits_singleton] using hren
      rw [hmant]
      by_cases hlnil : l = []
      · subst hlnil
        simp only [List.isEmpty_nil, if_true]
        have ht := takeDrop_digits_append [digitChar d0]
          (expChars (((natDigits m).length : ℤ) - (k : ℤ) - 1))
          (fun c hc => by
            simp only [List.mem_singleton] at hc
            subst hc
            exact isDigitChar_digitChar d0 hd0)
          (Or.inr ⟨'e', _, rfl, by decide⟩)
        rw [jsParseFloatCore, ht.1, ht.2, splitFrac_exp, parseExp_expChars, hcd]
        simp only [List.isEmpty_cons, List.isEmpty_nil, Bool.false_eq_true,
          false_and, if_false, hcv2, Nat.cast_zero, zero_div, add_zero,
          List.length_nil]
        simp only [List.length_nil, Nat.cast_zero] at hval
        simp only [pow_zero, one_mul, Nat.ofDigits_nil, zero_add] at hval
        simp only [List.length_nil, zero_add] at hD
        rw [hD]
        have hz : ((1 + (stripZeros m).2 : ℕ) : ℤ) - (k : ℤ) - 1 =
            (((stripZeros m).2 : ℕ) : ℤ) - (k : ℤ) := by push_cast; ring
        rw [hz, zpow_sub₀ h10, zpow_natCast, zpow_natCast]
        rw [show ((m : ℕ) : ℚ) = ((d0 * 10 ^ (stripZeros m).2 : ℕ) : ℚ) from by
          rw [show d0 * 10 ^ (stripZeros m).2 = m from by rw [← hval]; exact hsz]]
        push_cast
        ring_nf
      · have hlne : l.isEmpty = false := by simp [hlnil]
        rw [hlne]
        simp only [Bool.false_eq_true, if_false]
        have hdigs : ∀ c ∈ l.reverse.map digitChar, isDigitChar c = true := by
          intro c hc
          obtain ⟨d, hd, rfl⟩ := List.mem_map.mp hc
          exact isDigitChar_digitChar d (hl10 d (List.mem_reverse.mp hd))
        have ht2 := takeDrop_digits_append (l.reverse.map digitChar)
          (expChars (((natDigits m).length : ℤ) - (k : ℤ) - 1)) hdigs
          (Or.inr ⟨'e', _, rfl, by decide⟩)
        have ht : takeDigits (digitChar d0 :: '.' ::
              (l.reverse.map digitChar ++
                expChars (((natDigits m).length : ℤ) - (k : ℤ) - 1))) =
            [digitChar d0] ∧
          dropDigits (digitChar d0 :: '.' ::
              (l.reverse.map digitChar ++
                expChars (((natDigits m).length : ℤ) - (k : ℤ) - 1))) =
            '.' :: (l.reverse.map digitChar ++
              expChars (((natDigits m).length : ℤ) - (k : ℤ) - 1)) := by
          have hstep := takeDrop_digits_append [digitChar d0]
            ('.' :: (l.reverse.map digitChar ++
              expChars (((natDigits m).length : ℤ) - (k : ℤ) - 1)))
            (fun c hc => by
              simp only [List.mem_singleton] at hc
              subst hc
              exact isDigitChar_digitChar d0 hd0)
            (Or.inr ⟨'.', _, rfl, by decide⟩)
          simpa using hstep
        simp only [List.cons_append]
        rw [jsParseFloatCore, ht.1, ht.2, splitFrac_dot, ht2.1, ht2.2,
          parseExp_expChars, hcd, charsVal_render l hl10]
        simp only [List.isEmpty_cons, Bool.false_eq_true, false_and, if_false,
          List.length_map, List.length_reverse]
        rw [hD]
        have hz : ((l.length + 1 + (stripZeros m).2 : ℕ) : ℤ) - (k : ℤ) - 1 =
            ((l.length + (stripZeros m).2 : ℕ) : ℤ) - (k : ℤ) := by
          push_cast; ring
        rw [hz, zpow_sub₀ h10, zpow_natCast, zpow_natCast]
        rw [show ((m : ℕ) : ℚ) =
            (((Nat.ofDigits 10 l + 10 ^ l.length * d0) * 10 ^ (stripZeros m).2 : ℕ) :
              ℚ) from by rw [← hval]; rw [hsz]]
        have hpl : ((10 : ℚ) ^ l.length) ≠ 0 := by positivity
        have hpk : ((10 : ℚ) ^ k) ≠ 0 := by positivity
        push_cast
        rw [pow_add]
        field_simp
        ring
    · rw [if_neg hexp]
      by_cases hk0 : k = 0
      · subst hk0
        rw [if_pos rfl]
        have ht := takeDrop_digits_append (natToChars m) []
          (natToChars_digits m) (Or.inl rfl)
        rw [List.append_nil] at ht
        have hemp : (natToChars m).isEmpty = false := by
          simp [List.isEmpty_iff, natToChars_ne_nil]
        rw [jsParseFloatCore, ht.1, ht.2, splitFrac_nil]
        simp [hemp, hcv2, hpe, charsVal_natToChars]
      · rw [if_neg hk0]
        have hmod : m % 10 ^ k < 10 ^ k := Nat.mod_lt _ (pow_pos (by norm_num) k)
        have ht1 := takeDrop_digits_append (natToChars (m / 10 ^ k))
          ('.' :: fracChars k (m % 10 ^ k)) (natToChars_digits _)
          (Or.inr ⟨'.', _, rfl, by decide⟩)
        have ht2 := takeDrop_digits_append (fracChars k (m % 10 ^ k)) []
          (fracChars_digits _ _) (Or.inl rfl)
        rw [List.append_nil] at ht2
        have hemp : (natToChars (m / 10 ^ k)).isEmpty = false := by
          simp [List.isEmpty_iff, natToChars_ne_nil]
        rw [jsParseFloatCore, ht1.1, ht1.2, splitFrac_dot, ht2.1, ht2.2]
        rw [fracChars_length k _ hmod, charsVal_natToChars, charsVal_fracChars]
        simp [hemp, hpe, render_arith]

/-- Every ECMA rendering starts with a digit character. -/
theorem jsRender_head (m k : ℕ) :
    ∃ d t, d < 10 ∧ jsRenderDecimal m k = digitChar d :: t := by
  rw [jsRenderDecimal]
  split
  · exact ⟨0, [], by omega, rfl⟩
  next hm0 =>
    split
    next hexp =>
      have hs0 : (stripZeros m).1 ≠ 0 := (stripZerosAux_spec m m le_rfl).2 hm0
      obtain ⟨l, d0, hd0, -, -, -, hmant⟩ :=
        mantissa_decomp (stripZeros m).1 (by omega)
      exact ⟨d0, _, hd0, by rw [hmant]; rfl⟩
    next hexp =>
      split
      · exact natToChars_head m
      · obtain ⟨d, t, hd, hn⟩ := natToChars_head (m / 10 ^ k)
        exact ⟨d, t ++ '.' :: fracChars k (m % 10 ^ k), hd, by rw [hn]; rfl⟩

/-- The float codec round-trips on decimal-representable rationals
(`parseFloat` accepts the exponential notation `toString` may emit, so no
magnitude restriction is needed here). -/
theorem jsParseFloat_jsNumToString (q : ℚ) (h : (decExp q).isSome = true) :
    jsParseFloat (jsNumToString q) = some q := by
  obtain ⟨k, hk⟩ := Option.isSome_iff_exists.mp h
  have hm := decExp_num_eq q k hk
  have hq10 : ((10 : ℚ) ^ k) ≠ 0 := by positivity
  by_cases hq : q < 0
  · simp only [jsNumToString, hk, if_pos hq, List.cons_append, List.nil_append]
    simp only [jsParseFloat, string_data_mk, parseSign_dash,
      jsParseFloatCore_render, Option.map_some']
    simp only [if_true]
    rw [hm, mul_div_cancel_right₀ _ hq10, abs_of_neg hq, neg_neg]
  · simp only [jsNumToString, hk, if_neg hq, List.nil_append]
    obtain ⟨d, t, hd, hrend⟩ := jsRender_head ((|q| * (10 : ℚ) ^ k).num.toNat) k
    simp only [jsParseFloat, string_data_mk, hrend, parseSign_digit d hd]
    rw [← hrend, jsParseFloatCore_render]
    simp only [Option.map_some', Bool.false_eq_true, if_false]
    rw [hm, mul_div_cancel_right₀ _ hq10, abs_of_nonneg (not_lt.mp hq)]

/-- The integer codec round-trips below `1e21`, where `toString` still
prints positionally. -/
theorem jsParseInt_intToString (i : ℤ) (hb : i.natAbs < 10 ^ 21) :
    jsParseInt (intToString i) = some i := by
  have hrender : jsRenderDecimal i.natAbs 0 = natToChars i.natAbs := by
    by_cases h0 : i.natAbs = 0
    · rw [h0]
      decide
    · have hlen : (natDigits i.natAbs).length ≤ 21 :=
        natDigitsAux_len _ _ 21 le_rfl hb
      rw [jsRenderDecimal, if_neg h0, if_neg (by omega), if_pos rfl]
  have ht := takeDrop_digits_append (natToChars i.natAbs) []
    (natToChars_digits _) (Or.inl rfl)
  rw [List.append_nil] at ht
  have hemp : (natToChars i.natAbs).isEmpty = false := by
    simp [List.isEmpty_iff, natToChars_ne_nil]
  rw [intToString, hrender]
  by_cases hi : i < 0
  · rw [if_pos hi]
    show jsParseInt ⟨'-' :: natToChars i.natAbs⟩ = some i
    simp only [jsParseInt, string_data_mk, parseSign_dash, ht.1, hemp,
      Bool.false_eq_true, if_false, if_true, charsVal_natToChars]
    congr 1
    omega
  · rw [if_neg hi]
    simp only [List.nil_append]
    obtain ⟨d, t, hd, hn⟩ := natToChars_head i.natAbs
    simp only [jsParseInt, string_data_mk]
    rw [hn, parseSign_digit d hd]
    dsimp only
    rw [← hn]
    simp only [ht.1, hemp, Bool.false_eq_true, if_false, charsVal_natToChars]
    congr 1
    omega

/-- The integer codec is NOT the identity at `1e21`, matching the
program: `(1e21).toString()` is `'1e+21'` and `parseInt('1e+21', 10)`
stops at the 'e' and returns `1`, so an `endsAt` or `version` of `10^21`
is corrupted by a store round-trip. -/
theorem intCodec_fails_at_1e21 :
    intToString ((10 : ℤ) ^ 21) = "1e+21" ∧ jsParseInt "1e+21" = some 1 := by
  constructor <;> decide

/-- C7: `markEnded` sets the single hash field `ended` to 'true' and
nothing else: every other field of the record and every other key of the
store are untouched; it is idempotent, and on an already-ended record it
is a no-op that leaves the store identical (and never errors — it is a
total function). -/
theorem markEnded_frame_idempotent (s : RedisStore) (id : String) :
    markAuctionEnded s id (keyFor id) "ended" = some "true" ∧
    (∀ f, f ≠ "ended" → markAuctionEnded s id (keyFor id) f = s (keyFor id) f) ∧
    (∀ k, k ≠ keyFor id → markAuctionEnded s id k = s k) ∧
    markAuctionEnded (markAuctionEnded s id) id = markAuctionEnded s id ∧
    (s (keyFor id) "ended" = some "true" → markAuctionEnded s id = s) := by
  refine ⟨?_, ?_, ?_, ?_, ?_⟩
  · simp [markAuctionEnded]
  · intro f hf
    simp [markAuctionEnded, hf]
  · intro k hk
    simp [markAuctionEnded, hk]
  · funext k f
    by_cases hk : k = keyFor id <;> by_cases hf : f = "ended" <;>
      simp [markAuctionEnded, hk, hf]
  · intro h
    funext k f
    by_cases hk : k = keyFor id
    · subst hk
      by_cases hf : f = "ended"
      · subst hf
        simp [markAuctionEnded, h]
      · simp [markAuctionEnded, hf]
    · simp [markAuctionEnded, hk]

/-- Witness for C7: marking an already-ended concrete record leaves the
whole store literally unchanged. -/
theorem markEnded_frame_idempotent_witness :
    markAuctionEnded storeEnded "1" = storeEnded :=
  (markEnded_frame_idempotent storeEnded "1").2.2.2.2 rfl

/-- C9 counterexample: an item whose `id` is the empty string — with
perfectly finite, decimal numeric fields — does not round-trip: the
`!redisData.id` guard of `getItemById` treats the stored record as
missing and returns null instead of the item. -/
theorem roundtrip_fails_empty_id :
    getItemById (saveItem emptyRedisStore itemNoId) itemNoId.id = none ∧
    itemNoId.id = "" ∧
    (decExp itemNoId.startingPrice).isSome = true ∧
    (decExp itemNoId.currentBid).isSome = true := by
  refine ⟨?_, rfl, ?_, ?_⟩ <;> decide

/-- C9 amended: for every `AuctionItem` with a NON-EMPTY `id` whose
numeric fields are finite (decimal-representable) and whose integer
fields `endsAt` and `version` have magnitude BELOW `1e21` (beyond which
`toString` switches to exponential notation and `parseInt` truncates at
the 'e'), `saveItem` then `getItemById` returns the item unchanged: the
string encodings of `startingPrice`, `currentBid`, `endsAt`, `ended`,
and `version` round-trip through `parseFloat`/`parseInt`/
'true'-comparison without loss; the price fields need no magnitude bound
because `parseFloat` accepts the exponential notation. -/
theorem saveItem_getItemById_roundtrip (s : RedisStore) (it : AuctionItem)
    (hid : it.id ≠ "")
    (hsp : (decExp it.startingPrice).isSome = true)
    (hcb : (decExp it.currentBid).isSome = true)
    (hea : it.endsAt.natAbs < 10 ^ 21)
    (hv : it.version.natAbs < 10 ^ 21) :
    getItemById (saveItem s it) it.id = some it := by
  have hhash : ∀ f, saveItem s it (keyFor it.id) f =
      (fun f =>
        if f = "id" then some it.id
        else if f = "title" then some it.title
        else if f = "startingPrice" then some (jsNumToString it.startingPrice)
        else if f = "currentBid" then some (jsNumToString it.currentBid)
        else if f = "highestBidder" then some it.highestBidder
        else if f = "endsAt" then some (intToString it.endsAt)
        else if f = "ended" then some (boolToString it.ended)
        else if f = "version" then some (intToString it.version)
        else s (keyFor it.id) f) f := by
    intro f
    simp [saveItem]
  rw [getItemById]
  rw [if_pos ?hguard]
  case hguard =>
    rw [hhash "id"]
    simp [strTruthy, hid]
  · rw [parseAuctionItemR]
    rw [hhash "id", hhash "title", hhash "startingPrice", hhash "currentBid",
      hhash "highestBidder", hhash "endsAt", hhash "ended", hhash "version"]
    have hend : (boolToString it.ended == "true") = it.ended := by
      cases it.ended <;> rfl
    have hEa := jsParseInt_intToString it.endsAt hea
    have hV := jsParseInt_intToString it.version hv
    simp only [String.reduceEq, eq_self_iff_true, if_true, if_false, reduceIte,
      Option.some_bind', jsParseFloat_jsNumToString _ hsp,
      jsParseFloat_jsNumToString _ hcb, hEa, hV, hend]
    simp only [Option.bind_eq_bind, Option.some_bind', hend]
    rfl

/-- Witness for C9's amended theorem: the concrete seeded item
round-trips through the store encoding. -/
theorem saveItem_getItemById_roundtrip_witness :
    getItemById (saveItem emptyRedisStore itemA) itemA.id = some itemA :=
  saveItem_getItemById_roundtrip emptyRedisStore itemA (by decide) (by decide)
    (by decide) (by decide) (by decide)

/-- Witness for C10: the fully-absent message is rejected with
`currentBid = 0` and `itemId = "unknown"`. -/
theorem invalid_bid_rejection_payload_witness :
    ({ itemId := "unknown", currentBid := 0, message := "Invalid bid data" } :
        OutbidPayload).currentBid = 0 ∧
    (strTruthy (none : Option String) = false →
      ({ itemId := "unknown", currentBid := 0, message := "Invalid bid data" } :
          OutbidPayload).itemId = "unknown") :=
  invalid_bid_rejection_payload { itemId := none, amount := .notNum, bidderName := none }
    { itemId := "unknown", currentBid := 0, message := "Invalid bid data" } rfl

end LiveAuction
